import Mathlib

/-!
# validate-mail-go: denylist loading, denylist matching and the request handler

A shallow embedding of `validate-mail-go.go`.

Conventions of the embedding

* A Go `string` is a `List Char` (valid UTF-8 text, one `Char` per rune).
* `loadBlacklist` reads the file system; the state of `blacklist.conf` is an explicit
  argument (`FileState`).
* `isInBlacklist` calls `regexp.MustCompile` and `Regexp.MatchString` of the Go standard
  library.  The library is not part of the repository; it is modelled here for a fragment
  of the RE2 grammar (literals, `.`, `*`, `+`, `?` and their lazy forms, `|`, groups
  `( )` and `(?: )`, `^`, `$`, bracket classes of plain characters and ranges, escaped
  ASCII punctuation).  A pattern that uses anything else (flags, named groups, counted
  repetition, escapes of letters or digits, named classes) is reported as
  `outsideFragment`: the model makes no statement about it.  The library also refuses
  an expression that is too large or nested too deeply; `compile` follows the size check
  on patterns without groups, alternation or classes, and otherwise makes no statement
  about a pattern of more than `maxTokens` tokens.
* `MustCompile` panics on a pattern that does not parse; the panic is an explicit result
  (`Verdict.panics`, `HandlerResult.panics`).
* The `email` rule of the validator library is a parameter (`isEmail`); the `required`
  rule on a string field is "not the empty string".
* The JSON decoding of the request body is an argument of the handler (`Except` of the
  decode error text or the decoded `EmailRequest`).
-/

namespace ValidateMail

/-! ## Go standard library: `strings` and `unicode` -/

/-- Go `unicode.IsSpace`: the code points with the Unicode White_Space property. -/
def isSpace (c : Char) : Bool :=
  let n := c.toNat
  (9 ≤ n && n ≤ 13) || n == 32 || n == 0x85 || n == 0xA0 || n == 0x1680 ||
    (0x2000 ≤ n && n ≤ 0x200A) || n == 0x2028 || n == 0x2029 || n == 0x202F ||
    n == 0x205F || n == 0x3000

/-- Go `strings.TrimSpace`: leading white space removed, then trailing white space. -/
def trimSpace (s : List Char) : List Char :=
  ((s.dropWhile isSpace).reverse.dropWhile isSpace).reverse

/-- Loop of `strings.Split` for a one-character separator: `cur` holds the characters of
the piece being read, most recent first. -/
def splitAux (sep : Char) : List Char → List Char → List (List Char)
  | [], cur => [cur.reverse]
  | c :: cs, cur =>
    if c = sep then cur.reverse :: splitAux sep cs [] else splitAux sep cs (c :: cur)

/-- Go `strings.Split(s, sep)` for a one-character separator `sep`. -/
def split (s : List Char) (sep : Char) : List (List Char) :=
  splitAux sep s []

/-- Go `strings.ReplaceAll(s, old, new)` for a one-character `old`. -/
def replaceAll : List Char → Char → List Char → List Char
  | [], _, _ => []
  | c :: cs, old, new =>
    if c = old then new ++ replaceAll cs old new else c :: replaceAll cs old new

/-! ## `loadBlacklist` -/

/-- What `os.Stat` and `ioutil.ReadFile` find for `blacklist.conf`. -/
inductive FileState where
  | missing
  | unreadable (err : String)
  | content (data : List Char)

/-- Body of the `for _, line := range lines` loop of `loadBlacklist`. -/
def loadStep (filteredLines : List (List Char)) (line : List Char) : List (List Char) :=
  let line := trimSpace line
  if line.length == 0 || line.head? == some '#' then filteredLines
  else filteredLines ++ [line]

/-- Go `loadBlacklist`. -/
def loadBlacklist (file : FileState) : Except String (List (List Char)) :=
  match file with
  | .missing => .error "blacklist file blacklist.conf not found"
  | .unreadable err => .error ("error reading blacklist file blacklist.conf: " ++ err)
  | .content data =>
    let lines := split data '\n'
    .ok (lines.foldl loadStep [])

/-- The loader as the specification words it: split into lines, trim each line, drop the
lines that are then empty or begin with `#`, keep the order. -/
def specPatterns (data : List Char) : List (List Char) :=
  ((split data '\n').map trimSpace).filter
    (fun line => !(line.isEmpty || line.head? == some '#'))

/-! ## Go standard library: `regexp` (modelled fragment) -/

namespace Regexp

/-- Parsed regular expression.  Lazy repetition and capturing are not recorded: they do
not change whether a text contains a match. -/
inductive Regex where
  | emptyMatch
  | lit (c : Char)
  | anyCharNotNL
  | charClass (neg : Bool) (ranges : List (Char × Char))
  | beginText
  | endText
  | cat (a b : Regex)
  | alt (a b : Regex)
  | star (a : Regex)
  | plus (a : Regex)
  | quest (a : Regex)

/-- Result of reading a pattern: parsed, rejected by the library (`MustCompile` panics),
or outside the modelled fragment. -/
inductive Res (α : Type) where
  | ok (a : α)
  | badPattern
  | outsideFragment

/-- Apply `f` to a successful result. -/
def Res.map {α β : Type} (f : α → β) : Res α → Res β
  | .ok a => .ok (f a)
  | .badPattern => .badPattern
  | .outsideFragment => .outsideFragment

/-- Repetition operators `*`, `+`, `?`. -/
inductive RepOp where
  | star
  | plus
  | quest

/-- Lexical items of a pattern. -/
inductive Token where
  | atom (r : Regex)
  | rep (op : RepOp)
  | lparen
  | rparen
  | bar

/-- ASCII punctuation: `\` followed by one of these stands for that character. -/
def isPunct (c : Char) : Bool :=
  let n := c.toNat
  (33 ≤ n && n ≤ 47) || (58 ≤ n && n ≤ 64) || (91 ≤ n && n ≤ 96) || (123 ≤ n && n ≤ 126)

/-- Items of a bracket class after `[` or `[^`, up to the closing `]`.  `first` is true
while a `]` is still an ordinary member.  An item is one character or a range `lo-hi`; a
`-` before the closing `]` is an ordinary member; a range with `hi` below `lo` and a class
without closing `]` are rejected.  Returns the ranges read and the number of characters
consumed, the closing `]` included. -/
def lexClassItems : Bool → List Char → List (Char × Char) → Nat →
    Res (List (Char × Char) × Nat)
  | _, [], _, _ => .badPattern
  | first, c :: cs, acc, n =>
    if c = ']' ∧ first = false then .ok (acc.reverse, n + 1)
    else if c = '\\' then .outsideFragment
    else if c = '[' ∧ cs.head? = some ':' then .outsideFragment
    else
      match cs with
      | d :: hi :: rest =>
        if d = '-' ∧ hi ≠ ']' then
          if hi = '\\' then .outsideFragment
          else if hi.toNat < c.toNat then .badPattern
          else lexClassItems false rest ((c, hi) :: acc) (n + 3)
        else lexClassItems false (d :: hi :: rest) ((c, c) :: acc) (n + 1)
      | cs1 => lexClassItems false cs1 ((c, c) :: acc) (n + 1)

/-- Bracket class: the text after the opening `[`.  Returns the class and the number of
characters consumed after the `[`. -/
def lexClass (cs : List Char) : Res (Regex × Nat) :=
  match cs with
  | '^' :: rest =>
    (lexClassItems true rest [] 1).map (fun r => (Regex.charClass true r.1, r.2))
  | _ => (lexClassItems true cs [] 0).map (fun r => (Regex.charClass false r.1, r.2))

/-- Put a token in front of the tokens of the rest of the pattern. -/
def consTok (t : Token) (r : Res (List Token)) : Res (List Token) :=
  r.map (fun ts => t :: ts)

/-- Tokens of a pattern, left to right: the cases of the main loop of the library's
parser on the first character of what is left.  The first argument is the number of
characters to skip, those already consumed by the construct that was just read (the `?`
of a lazy repetition, the escaped character, the `?:` of a group, a bracket class). -/
def lexAux : Nat → List Char → Res (List Token)
  | _, [] => .ok []
  | n + 1, _ :: cs => lexAux n cs
  | 0, c :: cs =>
    if c = '\\' then
      match cs with
      | [] => .badPattern
      | e :: _ =>
        if isPunct e then consTok (.atom (.lit e)) (lexAux 1 cs) else .outsideFragment
    else if c = '[' then
      match lexClass cs with
      | .ok (r, used) => consTok (.atom r) (lexAux used cs)
      | .badPattern => .badPattern
      | .outsideFragment => .outsideFragment
    else if c = '(' then
      match cs with
      | '?' :: ':' :: _ => consTok .lparen (lexAux 2 cs)
      | '?' :: _ => .outsideFragment
      | _ => consTok .lparen (lexAux 0 cs)
    else if c = ')' then consTok .rparen (lexAux 0 cs)
    else if c = '|' then consTok .bar (lexAux 0 cs)
    else if c = '*' then
      consTok (.rep .star) (lexAux (if cs.head? = some '?' then 1 else 0) cs)
    else if c = '+' then
      consTok (.rep .plus) (lexAux (if cs.head? = some '?' then 1 else 0) cs)
    else if c = '?' then
      consTok (.rep .quest) (lexAux (if cs.head? = some '?' then 1 else 0) cs)
    else if c = '{' then
      match cs with
      | [] => consTok (.atom (.lit '{')) (lexAux 0 cs)
      | d :: _ =>
        if d.isDigit then .outsideFragment else consTok (.atom (.lit '{')) (lexAux 0 cs)
    else if c = '.' then consTok (.atom .anyCharNotNL) (lexAux 0 cs)
    else if c = '^' then consTok (.atom .beginText) (lexAux 0 cs)
    else if c = '$' then consTok (.atom .endText) (lexAux 0 cs)
    else consTok (.atom (.lit c)) (lexAux 0 cs)

/-- Concatenation of a list of expressions, in order. -/
def catList : List Regex → Regex
  | [] => .emptyMatch
  | r :: rs => .cat r (catList rs)

/-- Alternation of a list of expressions, in order. -/
def altList : List Regex → Regex
  | [] => .emptyMatch
  | [r] => r
  | r :: rs => .alt r (altList rs)

/-- Part of the parse stack that belongs to one open group: the alternatives already
closed by `|` and the items of the alternative being read, both most recent first. -/
structure Frame where
  alts : List Regex
  seq : List Regex

/-- Expression of a finished frame. -/
def Frame.close (f : Frame) : Regex :=
  altList ((catList f.seq.reverse :: f.alts).reverse)

/-- Apply a repetition operator. -/
def applyRep : RepOp → Regex → Regex
  | .star, r => .star r
  | .plus, r => .plus r
  | .quest, r => .quest r

/-- Parser state: the frame of the innermost open group, the frames of the enclosing
groups, and whether the previous token was a repetition operator. -/
structure PState where
  cur : Frame
  stack : List Frame
  lastRep : Bool

/-- The parser, as a loop over the tokens.  A repetition operator needs an expression
to its left in the same group and alternative, and must not follow another repetition
operator; `)` needs an open group; at the end no group may be open. -/
def parseTokens : List Token → PState → Res Regex
  | [], st => if st.stack.isEmpty then .ok st.cur.close else .badPattern
  | .atom r :: ts, st =>
    parseTokens ts ⟨⟨st.cur.alts, r :: st.cur.seq⟩, st.stack, false⟩
  | .rep op :: ts, st =>
    if st.lastRep then .badPattern
    else
      match st.cur.seq with
      | [] => .badPattern
      | r :: rs => parseTokens ts ⟨⟨st.cur.alts, applyRep op r :: rs⟩, st.stack, true⟩
  | .lparen :: ts, st => parseTokens ts ⟨⟨[], []⟩, st.cur :: st.stack, false⟩
  | .bar :: ts, st =>
    parseTokens ts ⟨⟨catList st.cur.seq.reverse :: st.cur.alts, []⟩, st.stack, false⟩
  | .rparen :: ts, st =>
    match st.stack with
    | [] => .badPattern
    | f :: fs => parseTokens ts ⟨⟨f.alts, st.cur.close :: f.seq⟩, fs, false⟩

/-- The library's `maxSize`: the largest size of an expression, in instructions
(128 MB of instructions of 40 bytes). -/
def maxSize : Nat := 134217728 / 40

/-- Number of tokens up to which a pattern with groups, alternation or classes is
modelled.  So short a pattern allocates fewer than the 1000 nodes below which the
library checks neither size nor nesting depth. -/
def maxTokens : Nat := 100

/-- A token of a flat pattern: a literal, `.`, `^`, `$` or a repetition operator. -/
def isFlatTok : Token → Bool
  | .atom (.lit _) => true
  | .atom .anyCharNotNL => true
  | .atom .beginText => true
  | .atom .endText => true
  | .rep _ => true
  | _ => false

/-- Whether a token is a literal character. -/
def isLitTok : Token → Bool
  | .atom (.lit _) => true
  | _ => false

/-- What a token adds to the size that the library computes for a flat expression
(`calcSize`): one for each rune of a literal and for `.`, `^`, `$`; two for a star; one
for `+` and `?`. -/
def tokSize : Token → Nat
  | .rep .star => 2
  | _ => 1

/-- Size of a flat expression as the library computes it: the sum over its items. -/
def flatSize (ts : List Token) : Nat :=
  (ts.map tokSize).sum

/-- A lower bound on the number of nodes the parser allocates for a flat pattern
(`numRegexp`): every token other than a literal allocates a node of its own; only the
nodes of literals are merged and handed out again. -/
def nodeFloor (ts : List Token) : Nat :=
  ts.countP (fun t => !isLitTok t)

/-- Go `regexp.Compile` on the modelled fragment.

The library computes the size of an expression only once `numRegexp` has reached
`maxSize`, and then rejects an expression larger than `maxSize` ("expression too large").
For a flat pattern the size of the whole expression is `flatSize`: when it is within
`maxSize` the check cannot fail; when it is beyond and at least `maxSize` nodes were
certainly allocated the pattern is rejected; in between the model makes no statement.
The nesting depth of a flat expression is at most three. -/
def compile (pattern : List Char) : Res Regex :=
  match lexAux 0 pattern with
  | .ok ts =>
    if ts.all isFlatTok then
      if flatSize ts ≤ maxSize then parseTokens ts ⟨⟨[], []⟩, [], false⟩
      else if maxSize ≤ nodeFloor ts then .badPattern
      else .outsideFragment
    else if ts.length ≤ maxTokens then parseTokens ts ⟨⟨[], []⟩, [], false⟩
    else .outsideFragment
  | .badPattern => .badPattern
  | .outsideFragment => .outsideFragment

/-- A place in the text: whether it is the beginning of the text, and what follows. -/
structure Pos where
  atStart : Bool
  rest : List Char

/-- Whether a character belongs to one of the ranges of a class. -/
def inRanges (ranges : List (Char × Char)) (d : Char) : Bool :=
  ranges.any (fun r => r.1.toNat ≤ d.toNat && d.toNat ≤ r.2.toNat)

/-- Match one character that satisfies `ok`. -/
def stepChar (ok : Char → Bool) (p : Pos) : List Pos :=
  match p.rest with
  | [] => []
  | d :: t => if ok d then [⟨false, t⟩] else []

/-- Places reachable from `p` by repeating `step` zero or more times; only repetitions
that consume text are followed, at most `fuel` of them. -/
def starLoop (step : Pos → List Pos) : Nat → Pos → List Pos
  | 0, p => [p]
  | fuel + 1, p =>
    p :: ((step p).filter (fun q => q.rest.length < p.rest.length)).flatMap
      (starLoop step fuel)

/-- All places where a match of the expression that starts at `p` can end. -/
def ends : Regex → Pos → List Pos
  | .emptyMatch, p => [p]
  | .lit c, p => stepChar (fun d => d = c) p
  | .anyCharNotNL, p => stepChar (fun d => d ≠ '\n') p
  | .charClass neg ranges, p => stepChar (fun d => inRanges ranges d != neg) p
  | .beginText, p => if p.atStart then [p] else []
  | .endText, p => if p.rest.isEmpty then [p] else []
  | .cat a b, p => (ends a p).flatMap (ends b)
  | .alt a b, p => ends a p ++ ends b p
  | .star a, p => starLoop (ends a) p.rest.length p
  | .plus a, p => (ends a p).flatMap (fun q => starLoop (ends a) q.rest.length q)
  | .quest a, p => p :: ends a p

/-- Every place of the text where a match may start. -/
def positions : Bool → List Char → List Pos
  | b, [] => [⟨b, []⟩]
  | b, c :: cs => ⟨b, c :: cs⟩ :: positions false cs

/-- Go `(*Regexp).MatchString`: whether the text contains any match of the expression. -/
def matchString (re : Regex) (s : List Char) : Bool :=
  (positions true s).any (fun p => !(ends re p).isEmpty)

end Regexp

/-! ## `isInBlacklist` -/

/-- How a call of `isInBlacklist` ends. -/
inductive Verdict where
  | returns (b : Bool)
  | panics
  | outsideFragment
  deriving DecidableEq, Repr

/-- Go `isInBlacklist`. -/
def isInBlacklist : List (List Char) → List Char → Verdict
  | [], _ => .returns false
  | pattern :: rest, email =>
    match Regexp.compile (replaceAll pattern '*' ['.', '*']) with
    | .badPattern => .panics
    | .outsideFragment => .outsideFragment
    | .ok re => if Regexp.matchString re email then .returns true else isInBlacklist rest email

/-! ## The handler of `/api/v1/` -/

/-- Go `EmailRequest`. -/
structure EmailRequest where
  EmailAddress : List Char
  deriving DecidableEq, Repr

/-- Go `BounceComponent` (`Typ` is the field `Type`). -/
structure BounceComponent where
  Typ : Int
  Detail : String
  Code : Int
  deriving DecidableEq, Repr

/-- Go `EmailResponse`; `Bounce` is a pointer that may be nil. -/
structure EmailResponse where
  EmailAddress : List Char
  Status : Int
  Bounce : Option BounceComponent
  deriving DecidableEq, Repr

/-- What the handler does with a request. -/
inductive HandlerResult where
  | httpError (status : Nat) (msg : String)
  | json (status : Nat) (resp : EmailResponse)
  | panics
  | outsideFragment
  deriving DecidableEq, Repr

/-- Go `http.StatusOK`. -/
def StatusOK : Nat := 200

/-- Go `http.StatusBadRequest`. -/
def StatusBadRequest : Nat := 400

/-- The check `validate.Struct(req)` for the tag `required,email`: true when it returns
no error. -/
def validateStruct (isEmail : List Char → Bool) (req : EmailRequest) : Bool :=
  !req.EmailAddress.isEmpty && isEmail req.EmailAddress

/-- Go `writeJSONResponse`: the status code written to the header and the value that is
encoded.  The header is written before the encoding starts, and encoding an
`EmailResponse` (strings, integers, one pointer) can only fail when the connection does,
which is not modelled. -/
def writeJSONResponse (resp : EmailResponse) (statusCode : Nat) : HandlerResult :=
  .json statusCode resp

/-- The handler registered for `/api/v1/` in `main`. -/
def handler (isEmail : List Char → Bool) (blacklist : List (List Char))
    (body : Except String EmailRequest) : HandlerResult :=
  match body with
  | .error err => .httpError StatusBadRequest err
  | .ok req =>
    if validateStruct isEmail req = false then
      writeJSONResponse ⟨req.EmailAddress, 2, some ⟨1, "Invalid mail format", 990⟩⟩ StatusOK
    else
      match isInBlacklist blacklist req.EmailAddress with
      | .panics => .panics
      | .outsideFragment => .outsideFragment
      | .returns true =>
        writeJSONResponse
          ⟨req.EmailAddress, 2, some ⟨1, "Bad destination mailbox address", 511⟩⟩ StatusOK
      | .returns false => writeJSONResponse ⟨req.EmailAddress, 1, none⟩ StatusOK

/-! ## Specification-side definitions -/

/-- The matching rule as the specification words it: `*` stands for any run of zero or
more characters, every other character stands for itself, and the pattern has to cover
the whole text. -/
def globMatch : List Char → List Char → Bool
  | [], s => s.isEmpty
  | c :: ps, s =>
    if c = '*' then s.tails.any (globMatch ps)
    else
      match s with
      | [] => false
      | d :: t => d = c && globMatch ps t

/-- The characters with a special meaning in a regular expression (those escaped by Go
`regexp.QuoteMeta`). -/
def metaChars : List Char :=
  ['\\', '.', '+', '*', '?', '(', ')', '|', '[', ']', '{', '}', '^', '$']

/-- A character without a special meaning in a regular expression. -/
def plainChar (c : Char) : Bool :=
  !metaChars.contains c

/-- A simple stand-in for the `email` rule of the validator library, used to instantiate
the parameter `isEmail` at concrete inputs: exactly one `@`, a non-empty local part, and
a domain with a dot that neither starts nor ends with a dot, no white space. -/
def sampleEmailRule (s : List Char) : Bool :=
  match split s '@' with
  | [loc, dom] =>
    !loc.isEmpty && !s.any isSpace && dom.contains '.' &&
      dom.head? != some '.' && dom.getLast? != some '.'
  | _ => false

/-- The textbook meaning of an expression: `Matches r p q` when a match of `r` that
starts at the place `p` can end at the place `q`. -/
inductive Regexp.Matches : Regexp.Regex → Regexp.Pos → Regexp.Pos → Prop where
  | emptyMatch (p : Regexp.Pos) : Matches .emptyMatch p p
  | lit (c : Char) (p q : Regexp.Pos) :
    p.rest = c :: q.rest → q.atStart = false → Matches (.lit c) p q
  | anyCharNotNL (d : Char) (p q : Regexp.Pos) :
    p.rest = d :: q.rest → q.atStart = false → d ≠ '\n' → Matches .anyCharNotNL p q
  | charClass (neg : Bool) (ranges : List (Char × Char)) (d : Char) (p q : Regexp.Pos) :
    p.rest = d :: q.rest → q.atStart = false → (Regexp.inRanges ranges d != neg) = true →
    Matches (.charClass neg ranges) p q
  | beginText (p : Regexp.Pos) : p.atStart = true → Matches .beginText p p
  | endText (p : Regexp.Pos) : p.rest = [] → Matches .endText p p
  | cat (a b : Regexp.Regex) (p m q : Regexp.Pos) :
    Matches a p m → Matches b m q → Matches (.cat a b) p q
  | altLeft (a b : Regexp.Regex) (p q : Regexp.Pos) : Matches a p q → Matches (.alt a b) p q
  | altRight (a b : Regexp.Regex) (p q : Regexp.Pos) : Matches b p q → Matches (.alt a b) p q
  | starNil (a : Regexp.Regex) (p : Regexp.Pos) : Matches (.star a) p p
  | starCons (a : Regexp.Regex) (p m q : Regexp.Pos) :
    Matches a p m → Matches (.star a) m q → Matches (.star a) p q
  | plus (a : Regexp.Regex) (p m q : Regexp.Pos) :
    Matches a p m → Matches (.star a) m q → Matches (.plus a) p q
  | questNil (a : Regexp.Regex) (p : Regexp.Pos) : Matches (.quest a) p p
  | questSome (a : Regexp.Regex) (p q : Regexp.Pos) : Matches a p q → Matches (.quest a) p q

/-- A pattern of the letter `A` followed by 1,700,000 times `*`. -/
def oversizePattern : List Char :=
  'A' :: List.replicate 1700000 '*'

/-- Characters of the patterns for which matching is characterised below: `*`, `.` and
the characters without a special meaning. -/
def simpleChar (c : Char) : Bool :=
  c = '*' || c = '.' || plainChar c

/-- Tokens that a character of a simple pattern yields once `*` is replaced by `.*`. -/
def simpleToks (c : Char) : List Regexp.Token :=
  if c = '*' then [.atom .anyCharNotNL, .rep .star]
  else if c = '.' then [.atom .anyCharNotNL]
  else [.atom (.lit c)]

/-- Expression that a character of a simple pattern yields once `*` is replaced by
`.*`. -/
def simpleItem (c : Char) : Regexp.Regex :=
  if c = '*' then .star .anyCharNotNL
  else if c = '.' then .anyCharNotNL
  else .lit c

/-! ## The loader -/

theorem length_beq_zero (l : List Char) : (l.length == 0) = l.isEmpty := by
  cases l <;> rfl

theorem loadStep_eq (acc : List (List Char)) (line : List Char) :
    loadStep acc line =
      acc ++ [trimSpace line].filter (fun l => !(l.isEmpty || l.head? == some '#')) := by
  unfold loadStep
  simp only [length_beq_zero, List.filter_cons, List.filter_nil]
  by_cases h : ((trimSpace line).isEmpty || (trimSpace line).head? == some '#') = true
  · simp [h]
  · simp [h]

theorem foldl_loadStep (lines : List (List Char)) (acc : List (List Char)) :
    lines.foldl loadStep acc =
      acc ++ (lines.map trimSpace).filter (fun l => !(l.isEmpty || l.head? == some '#')) := by
  induction lines generalizing acc with
  | nil => simp
  | cons line lines ih =>
    rw [List.foldl_cons, ih, loadStep_eq, List.map_cons, List.append_assoc,
      ← List.filter_append]
    rfl

theorem splitAux_append (sep : Char) (a b cur : List Char) :
    splitAux sep (a ++ sep :: b) cur = splitAux sep a cur ++ splitAux sep b [] := by
  induction a generalizing cur with
  | nil => simp [splitAux]
  | cons c a ih =>
    by_cases h : c = sep
    · simp [splitAux, h, ih]
    · simp [splitAux, h, ih]

theorem splitAux_no_sep (sep : Char) (line cur : List Char) (h : sep ∉ line) :
    splitAux sep line cur = [cur.reverse ++ line] := by
  induction line generalizing cur with
  | nil => simp [splitAux]
  | cons c line ih =>
    have hc : c ≠ sep := fun e => h (by simp [e])
    have hl : sep ∉ line := fun e => h (by simp [e])
    simp [splitAux, hc, ih _ hl]

theorem head_dropWhile_isSpace (s : List Char) (c : Char)
    (h : (s.dropWhile isSpace).head? = some c) : isSpace c = false := by
  induction s with
  | nil => simp at h
  | cons d s ih =>
    by_cases hd : isSpace d = true
    · rw [List.dropWhile_cons_of_pos hd] at h
      exact ih h
    · rw [List.dropWhile_cons_of_neg hd] at h
      simp at h
      subst h
      simpa using hd

theorem trimSpace_getLast (s : List Char) (c : Char)
    (h : (trimSpace s).getLast? = some c) : isSpace c = false := by
  unfold trimSpace at h
  rw [List.getLast?_reverse] at h
  exact head_dropWhile_isSpace _ c h

theorem trimSpace_head (s : List Char) (c : Char)
    (h : (trimSpace s).head? = some c) : isSpace c = false := by
  have hsuf : (s.dropWhile isSpace).reverse.dropWhile isSpace <:+ (s.dropWhile isSpace).reverse :=
    List.dropWhile_suffix _
  obtain ⟨t, ht⟩ := hsuf
  have hrev : s.dropWhile isSpace = trimSpace s ++ t.reverse := by
    have := congrArg List.reverse ht
    simp only [List.reverse_append, List.reverse_reverse] at this
    unfold trimSpace
    exact this.symm
  apply head_dropWhile_isSpace s c
  rw [hrev]
  cases hts : trimSpace s with
  | nil => rw [hts] at h; simp at h
  | cons d r => rw [hts] at h; simpa using h

theorem trimSpace_fixed (p : List Char)
    (hh : ∀ c, p.head? = some c → isSpace c = false)
    (hl : ∀ c, p.getLast? = some c → isSpace c = false) : trimSpace p = p := by
  have drop_self : ∀ l : List Char, (∀ c, l.head? = some c → isSpace c = false) →
      l.dropWhile isSpace = l := by
    intro l h
    cases l with
    | nil => rfl
    | cons d r =>
      have hd : ¬ isSpace d = true := by simp [h d rfl]
      exact List.dropWhile_cons_of_neg hd
  unfold trimSpace
  rw [drop_self p hh, drop_self p.reverse (by simpa using hl), List.reverse_reverse]

theorem mem_specPatterns (data p : List Char) (h : p ∈ specPatterns data) :
    p ≠ [] ∧ p.head? ≠ some '#' ∧ trimSpace p = p ∧
      (∀ c, p.head? = some c → isSpace c = false) ∧
      (∀ c, p.getLast? = some c → isSpace c = false) := by
  unfold specPatterns at h
  rw [List.mem_filter, List.mem_map] at h
  obtain ⟨⟨line, -, rfl⟩, hk⟩ := h
  have hh := trimSpace_head line
  have hl := trimSpace_getLast line
  refine ⟨?_, ?_, trimSpace_fixed _ hh hl, hh, hl⟩
  · intro e
    rw [e] at hk
    simp at hk
  · intro e
    rw [e] at hk
    simp at hk

theorem loadBlacklist_eq_specPatterns (data : List Char) :
    loadBlacklist (.content data) = .ok (specPatterns data) := by
  simp only [loadBlacklist, specPatterns, foldl_loadStep, List.nil_append]

/-- A file of one line without white space that is not a comment loads as that line. -/
theorem loadBlacklist_single_line (p : List Char) (hne : p ≠ [])
    (hsp : ∀ c ∈ p, isSpace c = false) (hhash : p.head? ≠ some '#') :
    loadBlacklist (.content p) = .ok [p] := by
  have hnl : '\n' ∉ p := by
    intro h
    have := hsp '\n' h
    exact absurd this (by decide)
  have htrim : trimSpace p = p :=
    trimSpace_fixed p (fun c hc => hsp c (List.mem_of_mem_head? hc))
      (fun c hc => hsp c (List.mem_of_getLast?_eq_some hc))
  rw [loadBlacklist_eq_specPatterns]
  congr 1
  unfold specPatterns split
  rw [splitAux_no_sep _ _ _ hnl]
  simp only [List.reverse_nil, List.nil_append, List.map_cons, List.map_nil, htrim]
  cases p with
  | nil => exact absurd rfl hne
  | cons c r =>
    have hc : c ≠ '#' := fun e => hhash (by simp [e])
    have hb : (c == '#') = false := by simpa using hc
    simp [List.filter, hb]

/-- C7: for a readable file, `loadBlacklist` returns the content split on newlines, each
line trimmed, without the lines that are then empty or begin with `#`, in the original
order; every loaded pattern is non-empty, does not begin with `#` and has no surrounding
white space; a content of comments and blank lines only gives the empty sequence without
error; a comment or blank line added to the content changes nothing; and the content
`evil.com`, `#comment`, empty line, `bad*` loads as `evil.com`, `bad*`. -/
theorem C7_loadBlacklist_patterns :
    (∀ data, loadBlacklist (.content data) = .ok (specPatterns data)) ∧
    (∀ data ps, loadBlacklist (.content data) = .ok ps → ∀ p ∈ ps,
      p ≠ [] ∧ p.head? ≠ some '#' ∧ trimSpace p = p ∧
        (∀ c, p.head? = some c → isSpace c = false) ∧
        (∀ c, p.getLast? = some c → isSpace c = false)) ∧
    (∀ data, (∀ line ∈ split data '\n',
        trimSpace line = [] ∨ (trimSpace line).head? = some '#') →
      loadBlacklist (.content data) = .ok []) ∧
    (∀ a b line, '\n' ∉ line →
      (trimSpace line = [] ∨ (trimSpace line).head? = some '#') →
      loadBlacklist (.content (a ++ '\n' :: (line ++ '\n' :: b))) =
        loadBlacklist (.content (a ++ '\n' :: b))) ∧
    loadBlacklist (.content "evil.com\n#comment\n\nbad*".toList) =
      .ok ["evil.com".toList, "bad*".toList] := by
  have main : ∀ data, loadBlacklist (.content data) = .ok (specPatterns data) := by
    intro data
    simp only [loadBlacklist, specPatterns, foldl_loadStep, List.nil_append]
  refine ⟨main, ?_, ?_, ?_, ?_⟩
  · intro data ps h p hp
    rw [main] at h
    cases h
    exact mem_specPatterns data p hp
  · intro data h
    rw [main]
    congr 1
    unfold specPatterns
    rw [List.filter_eq_nil_iff]
    intro l hl
    rw [List.mem_map] at hl
    obtain ⟨line, hline, rfl⟩ := hl
    rcases h line hline with e | e
    · simp [e]
    · simp [e]
  · intro a b line hnl hc
    rw [main, main]
    congr 1
    unfold specPatterns split
    rw [splitAux_append, splitAux_append, splitAux_append, splitAux_no_sep _ _ _ hnl]
    simp only [List.map_append, List.filter_append, List.reverse_nil, List.nil_append,
      List.map_cons, List.map_nil, List.append_assoc]
    congr 1
    rcases hc with e | e
    · simp [e]
    · simp [e]
  · rw [main]
    exact congrArg Except.ok (by decide)

/-- C7, at a file of two comment lines and a blank line. -/
theorem C7_loadBlacklist_patterns_witness :
    (∀ line ∈ split "#a\n\n  # b".toList '\n',
        trimSpace line = [] ∨ (trimSpace line).head? = some '#') ∧
      loadBlacklist (.content "#a\n\n  # b".toList) = .ok [] :=
  ⟨by decide, C7_loadBlacklist_patterns.2.2.1 "#a\n\n  # b".toList (by decide)⟩

/-! ## The handler -/

theorem validateStruct_empty (isEmail : List Char → Bool) :
    validateStruct isEmail ⟨[]⟩ = false := by
  simp [validateStruct]

theorem handler_invalid (isEmail : List Char → Bool) (blacklist : List (List Char))
    (req : EmailRequest) (h : validateStruct isEmail req = false) :
    handler isEmail blacklist (.ok req) =
      .json 200 ⟨req.EmailAddress, 2, some ⟨1, "Invalid mail format", 990⟩⟩ := by
  simp [handler, h, writeJSONResponse, StatusOK]

/-- C3: for every denylist and every decoded request whose address fails the
`required,email` validation, the handler answers with status 200 and the response
`status = 2`, `bounce = (type 1, "Invalid mail format", code 990)`, echoing the address;
the answer is the same for every other denylist. -/
theorem C3_invalid_address_response (isEmail : List Char → Bool)
    (blacklist : List (List Char)) (req : EmailRequest)
    (h : validateStruct isEmail req = false) :
    handler isEmail blacklist (.ok req) =
        .json 200 ⟨req.EmailAddress, 2, some ⟨1, "Invalid mail format", 990⟩⟩ ∧
      ∀ other, handler isEmail other (.ok req) = handler isEmail blacklist (.ok req) := by
  constructor
  · exact handler_invalid isEmail blacklist req h
  · intro other
    rw [handler_invalid isEmail other req h, handler_invalid isEmail blacklist req h]

/-- C3 at the address `not-an-email` with the denylist `evil.com`, `bad*`, and at the
empty address with the denylist `*`, whose pattern matches every address. -/
theorem C3_invalid_address_response_witness :
    (validateStruct sampleEmailRule ⟨"not-an-email".toList⟩ = false ∧
      handler sampleEmailRule ["evil.com".toList, "bad*".toList]
          (.ok ⟨"not-an-email".toList⟩) =
        .json 200 ⟨"not-an-email".toList, 2, some ⟨1, "Invalid mail format", 990⟩⟩) ∧
    (isInBlacklist ["*".toList] [] = .returns true ∧
      ∀ isEmail, handler isEmail ["*".toList] (.ok ⟨[]⟩) =
        .json 200 ⟨[], 2, some ⟨1, "Invalid mail format", 990⟩⟩) :=
  ⟨⟨by decide,
      (C3_invalid_address_response sampleEmailRule ["evil.com".toList, "bad*".toList]
        ⟨"not-an-email".toList⟩ (by decide)).1⟩,
    ⟨by decide, fun isEmail =>
      (C3_invalid_address_response isEmail ["*".toList] ⟨[]⟩
        (validateStruct_empty isEmail)).1⟩⟩

/-- C4: for every denylist and every decoded request whose address passes the validation
and for which `isInBlacklist` returns true, the handler answers with status 200 and the
response `status = 2`, `bounce = (type 1, "Bad destination mailbox address", code 511)`,
echoing the address. -/
theorem C4_denylisted_address_response (isEmail : List Char → Bool)
    (blacklist : List (List Char)) (req : EmailRequest)
    (hv : validateStruct isEmail req = true)
    (hb : isInBlacklist blacklist req.EmailAddress = .returns true) :
    handler isEmail blacklist (.ok req) =
      .json 200 ⟨req.EmailAddress, 2, some ⟨1, "Bad destination mailbox address", 511⟩⟩ := by
  simp [handler, hv, hb, writeJSONResponse, StatusOK]

/-- C4 at the denylist loaded from `evil.com`, `#comment`, empty line, `bad*` and the
address `user@evil.com`. -/
theorem C4_denylisted_address_response_witness :
    loadBlacklist (.content "evil.com\n#comment\n\nbad*".toList) =
        .ok ["evil.com".toList, "bad*".toList] ∧
      validateStruct sampleEmailRule ⟨"user@evil.com".toList⟩ = true ∧
      isInBlacklist ["evil.com".toList, "bad*".toList] "user@evil.com".toList =
        .returns true ∧
      handler sampleEmailRule ["evil.com".toList, "bad*".toList]
          (.ok ⟨"user@evil.com".toList⟩) =
        .json 200 ⟨"user@evil.com".toList, 2,
          some ⟨1, "Bad destination mailbox address", 511⟩⟩ :=
  ⟨congrArg Except.ok (by decide), by decide, by decide,
    C4_denylisted_address_response sampleEmailRule ["evil.com".toList, "bad*".toList]
      ⟨"user@evil.com".toList⟩ (by decide) (by decide)⟩

/-- C5: for every denylist and every decoded request whose address passes the validation
and for which `isInBlacklist` returns false, the handler answers with status 200 and the
response `status = 1` without bounce, echoing the address. -/
theorem C5_accepted_address_response (isEmail : List Char → Bool)
    (blacklist : List (List Char)) (req : EmailRequest)
    (hv : validateStruct isEmail req = true)
    (hb : isInBlacklist blacklist req.EmailAddress = .returns false) :
    handler isEmail blacklist (.ok req) = .json 200 ⟨req.EmailAddress, 1, none⟩ := by
  simp [handler, hv, hb, writeJSONResponse, StatusOK]

/-- C5 at the denylist `evil.com`, `bad*` and the address `user@good.com`. -/
theorem C5_accepted_address_response_witness :
    validateStruct sampleEmailRule ⟨"user@good.com".toList⟩ = true ∧
      isInBlacklist ["evil.com".toList, "bad*".toList] "user@good.com".toList =
        .returns false ∧
      handler sampleEmailRule ["evil.com".toList, "bad*".toList]
          (.ok ⟨"user@good.com".toList⟩) =
        .json 200 ⟨"user@good.com".toList, 1, none⟩ :=
  ⟨by decide, by decide,
    C5_accepted_address_response sampleEmailRule ["evil.com".toList, "bad*".toList]
      ⟨"user@good.com".toList⟩ (by decide) (by decide)⟩

/-- C6: for every denylist and every decoded request, an `EmailResponse` that the
handler produces has status 1 or 2 and carries a bounce exactly when its status is 2;
the handler produces one whenever the address is invalid or `isInBlacklist` returns. -/
theorem C6_envelope_invariant (isEmail : List Char → Bool)
    (blacklist : List (List Char)) (req : EmailRequest) :
    (∀ status resp, handler isEmail blacklist (.ok req) = .json status resp →
      (resp.Status = 1 ∨ resp.Status = 2) ∧ (resp.Bounce.isSome = true ↔ resp.Status = 2)) ∧
    ((validateStruct isEmail req = false ∨
        ∃ b, isInBlacklist blacklist req.EmailAddress = .returns b) →
      ∃ status resp, handler isEmail blacklist (.ok req) = .json status resp) := by
  constructor
  · intro status resp h
    unfold handler at h
    simp only [writeJSONResponse] at h
    split at h
    · cases h
      simp
    · split at h
      · cases h
      · cases h
      · cases h
        simp
      · cases h
        simp
  · rintro (h | ⟨b, hb⟩)
    · exact ⟨_, _, handler_invalid isEmail blacklist req h⟩
    · unfold handler
      simp only [writeJSONResponse]
      split
      · exact ⟨_, _, rfl⟩
      · rw [hb]
        cases b
        · exact ⟨_, _, rfl⟩
        · exact ⟨_, _, rfl⟩

/-- C6 at the denylist `evil.com`, `bad*` and the address `user@evil.com`. -/
theorem C6_envelope_invariant_witness :
    (handler sampleEmailRule ["evil.com".toList, "bad*".toList]
          (.ok ⟨"user@evil.com".toList⟩) =
        .json 200 ⟨"user@evil.com".toList, 2,
          some ⟨1, "Bad destination mailbox address", 511⟩⟩ ∧
      (((2 : Int) = 1 ∨ (2 : Int) = 2) ∧
        ((some (⟨1, "Bad destination mailbox address", 511⟩ : BounceComponent)).isSome = true ↔
          (2 : Int) = 2))) ∧
    isInBlacklist ["evil.com".toList, "bad*".toList] "user@evil.com".toList =
      .returns true ∧
    ∃ status resp, handler sampleEmailRule ["evil.com".toList, "bad*".toList]
      (.ok ⟨"user@evil.com".toList⟩) = .json status resp :=
  ⟨⟨by decide,
      (C6_envelope_invariant sampleEmailRule ["evil.com".toList, "bad*".toList]
        ⟨"user@evil.com".toList⟩).1 200
        ⟨"user@evil.com".toList, 2, some ⟨1, "Bad destination mailbox address", 511⟩⟩
        (by decide)⟩,
    by decide,
    (C6_envelope_invariant sampleEmailRule ["evil.com".toList, "bad*".toList]
      ⟨"user@evil.com".toList⟩).2 (Or.inr ⟨true, by decide⟩)⟩

/-! ## Simple patterns: what `regexp.MustCompile` makes of them -/

open Regexp

theorem plainChar_ne (c : Char) (h : plainChar c = true) :
    c ≠ '\\' ∧ c ≠ '.' ∧ c ≠ '+' ∧ c ≠ '*' ∧ c ≠ '?' ∧ c ≠ '(' ∧ c ≠ ')' ∧ c ≠ '|' ∧
      c ≠ '[' ∧ c ≠ ']' ∧ c ≠ '{' ∧ c ≠ '}' ∧ c ≠ '^' ∧ c ≠ '$' := by
  simpa [plainChar, metaChars] using h

theorem lexAux_plain (c : Char) (cs : List Char) (h : plainChar c = true) :
    lexAux 0 (c :: cs) = consTok (.atom (.lit c)) (lexAux 0 cs) := by
  obtain ⟨h1, h2, h3, h4, h5, h6, h7, h8, h9, -, h11, -, h13, h14⟩ := plainChar_ne c h
  simp [lexAux, h1, h2, h3, h4, h5, h6, h7, h8, h9, h11, h13, h14]

theorem lexAux_dot (cs : List Char) :
    lexAux 0 ('.' :: cs) = consTok (.atom .anyCharNotNL) (lexAux 0 cs) := by
  simp [lexAux]

theorem lexAux_star (cs : List Char) (h : cs.head? ≠ some '?') :
    lexAux 0 ('*' :: cs) = consTok (.rep .star) (lexAux 0 cs) := by
  simp [lexAux, h]

theorem simpleChar_cases (c : Char) (h : simpleChar c = true) :
    c = '*' ∨ c = '.' ∨ plainChar c = true := by
  simpa [simpleChar, or_assoc] using h

theorem head_replaceAll_ne_quest (p : List Char) (h : ∀ c ∈ p, simpleChar c = true) :
    (replaceAll p '*' ['.', '*']).head? ≠ some '?' := by
  cases p with
  | nil => simp [replaceAll]
  | cons c p =>
    rcases simpleChar_cases c (h c (by simp)) with rfl | rfl | hp
    · simp [replaceAll]
    · simp [replaceAll]
    · have hne := plainChar_ne c hp
      simp [replaceAll, hne.2.2.2.1, hne.2.2.2.2.1]

theorem lexAux_simple (p : List Char) (h : ∀ c ∈ p, simpleChar c = true) :
    lexAux 0 (replaceAll p '*' ['.', '*']) = .ok (p.flatMap simpleToks) := by
  induction p with
  | nil => simp [replaceAll, lexAux]
  | cons c p ih =>
    have hp : ∀ d ∈ p, simpleChar d = true := fun d hd => h d (by simp [hd])
    have ih := ih hp
    rcases simpleChar_cases c (h c (by simp)) with rfl | rfl | hc
    · have e : replaceAll ('*' :: p) '*' ['.', '*'] =
          '.' :: '*' :: replaceAll p '*' ['.', '*'] := by simp [replaceAll]
      rw [e, lexAux_dot, lexAux_star _ (head_replaceAll_ne_quest p hp), ih]
      simp [consTok, Res.map, simpleToks]
    · have e : replaceAll ('.' :: p) '*' ['.', '*'] = '.' :: replaceAll p '*' ['.', '*'] := by
        simp [replaceAll]
      rw [e, lexAux_dot, ih]
      simp [consTok, Res.map, simpleToks]
    · have hne := plainChar_ne c hc
      have e : replaceAll (c :: p) '*' ['.', '*'] = c :: replaceAll p '*' ['.', '*'] := by
        simp [replaceAll, hne.2.2.2.1]
      rw [e, lexAux_plain c _ hc, ih]
      simp [consTok, Res.map, simpleToks, hne.2.2.2.1, hne.2.1]

theorem parseTokens_simple (p : List Char) (ts : List Token) (alts seq : List Regex)
    (stack : List Frame) (b : Bool) :
    ∃ b1, parseTokens (p.flatMap simpleToks ++ ts) ⟨⟨alts, seq⟩, stack, b⟩ =
      parseTokens ts ⟨⟨alts, (p.map simpleItem).reverse ++ seq⟩, stack, b1⟩ := by
  induction p generalizing seq b with
  | nil => exact ⟨b, by simp⟩
  | cons c p ih =>
    by_cases h1 : c = '*'
    · obtain ⟨b1, hb1⟩ := ih (Regex.star Regex.anyCharNotNL :: seq) true
      refine ⟨b1, ?_⟩
      simp only [List.flatMap_cons, simpleToks, h1, if_true, List.cons_append,
        List.nil_append, parseTokens, List.map_cons, simpleItem, List.reverse_cons,
        List.append_assoc, applyRep]
      simpa using hb1
    · by_cases h2 : c = '.'
      · obtain ⟨b1, hb1⟩ := ih (Regex.anyCharNotNL :: seq) false
        refine ⟨b1, ?_⟩
        subst h2
        simp only [List.flatMap_cons, simpleToks, List.cons_append,
          List.nil_append, parseTokens, List.map_cons, simpleItem, List.reverse_cons,
          List.append_assoc]
        simpa using hb1
      · obtain ⟨b1, hb1⟩ := ih (Regex.lit c :: seq) false
        refine ⟨b1, ?_⟩
        simp only [List.flatMap_cons, simpleToks, h1, h2, if_false, List.cons_append,
          List.nil_append, parseTokens, List.map_cons, simpleItem, List.reverse_cons,
          List.append_assoc]
        simpa using hb1

theorem all_isFlatTok_simple (p : List Char) :
    (p.flatMap simpleToks).all isFlatTok = true := by
  induction p with
  | nil => rfl
  | cons c p ih =>
    rw [List.flatMap_cons, List.all_append, ih, Bool.and_true]
    unfold simpleToks
    split
    · rfl
    · split <;> rfl

theorem flatSize_append (a b : List Token) : flatSize (a ++ b) = flatSize a + flatSize b := by
  simp [flatSize]

theorem nodeFloor_append (a b : List Token) :
    nodeFloor (a ++ b) = nodeFloor a + nodeFloor b := by
  simp [nodeFloor]

theorem flatSize_simple_le (p : List Char) :
    flatSize (p.flatMap simpleToks) ≤ 3 * p.length := by
  induction p with
  | nil => simp [flatSize]
  | cons c p ih =>
    rw [List.flatMap_cons, flatSize_append, List.length_cons]
    have hc : flatSize (simpleToks c) ≤ 3 := by
      unfold simpleToks
      split
      · simp [flatSize, tokSize]
      · split <;> simp [flatSize, tokSize]
    omega

/-- What `compile` makes of a pattern of `*`, `.` and characters without a special
meaning: within the size limit the concatenation of its items. -/
theorem compile_simple_eq (p : List Char) (h : ∀ c ∈ p, simpleChar c = true) :
    compile (replaceAll p '*' ['.', '*']) =
      if flatSize (p.flatMap simpleToks) ≤ maxSize then .ok (catList (p.map simpleItem))
      else if maxSize ≤ nodeFloor (p.flatMap simpleToks) then .badPattern
      else .outsideFragment := by
  unfold compile
  rw [lexAux_simple p h]
  obtain ⟨b1, hb1⟩ := parseTokens_simple p [] [] [] [] false
  simp only [List.append_nil] at hb1
  simp only [all_isFlatTok_simple, if_true, hb1, parseTokens, List.isEmpty_nil, Frame.close,
    List.reverse_reverse, List.reverse_cons, List.reverse_nil, List.nil_append, altList]

/-- A pattern of at most 1,000,000 characters among `*`, `.` and those without a special
meaning compiles, to the concatenation of its items. -/
theorem compile_simple (p : List Char) (h : ∀ c ∈ p, simpleChar c = true)
    (hlen : p.length ≤ 1000000) :
    compile (replaceAll p '*' ['.', '*']) = .ok (catList (p.map simpleItem)) := by
  rw [compile_simple_eq p h, if_pos]
  have h1 := flatSize_simple_le p
  have h2 : 3 * 1000000 ≤ maxSize := by decide
  omega

/-- Every outcome of `compile` on a pattern of `*`, `.` and characters without a special
meaning other than the concatenation of its items is a refusal. -/
theorem compile_simple_ok (p : List Char) (h : ∀ c ∈ p, simpleChar c = true) (re : Regex)
    (hre : compile (replaceAll p '*' ['.', '*']) = .ok re) :
    re = catList (p.map simpleItem) := by
  rw [compile_simple_eq p h] at hre
  split at hre
  · cases hre
    rfl
  · split at hre <;> cases hre

/-! ## Simple patterns: what `MatchString` accepts -/

theorem mem_stepChar (ok : Char → Bool) (p q : Pos) (h : q ∈ stepChar ok p) :
    ∃ d, ok d = true ∧ p.rest = d :: q.rest := by
  unfold stepChar at h
  split at h
  · simp at h
  · rename_i d t ht
    by_cases hd : ok d = true
    · simp only [hd, if_true, List.mem_singleton] at h
      subst h
      exact ⟨d, hd, ht⟩
    · simp [hd] at h

theorem mem_starLoop (step : Pos → List Pos)
    (hstep : ∀ a b, b ∈ step a → ∃ run, a.rest = run ++ b.rest) (n : Nat) (p q : Pos)
    (h : q ∈ starLoop step n p) : ∃ run, p.rest = run ++ q.rest := by
  induction n generalizing p with
  | zero =>
    simp only [starLoop, List.mem_singleton] at h
    subst h
    exact ⟨[], rfl⟩
  | succ n ih =>
    simp only [starLoop, List.mem_cons, List.mem_flatMap, List.mem_filter] at h
    rcases h with rfl | ⟨m, ⟨hm, -⟩, hq⟩
    · exact ⟨[], rfl⟩
    · obtain ⟨r1, h1⟩ := hstep p m hm
      obtain ⟨r2, h2⟩ := ih m hq
      exact ⟨r1 ++ r2, by rw [h1, h2, List.append_assoc]⟩

theorem mem_ends_simpleItem (c : Char) (p q : Pos) (h : q ∈ ends (simpleItem c) p) :
    (c = '*' ∧ ∃ run, p.rest = run ++ q.rest) ∨
      (c = '.' ∧ ∃ d, p.rest = d :: q.rest) ∨
      (c ≠ '*' ∧ c ≠ '.' ∧ p.rest = c :: q.rest) := by
  by_cases h1 : c = '*'
  · left
    refine ⟨h1, ?_⟩
    simp only [simpleItem, h1, if_true, ends] at h
    refine mem_starLoop _ ?_ _ p q h
    intro a b hb
    obtain ⟨d, -, hd⟩ := mem_stepChar _ a b hb
    exact ⟨[d], by simp [hd]⟩
  · by_cases h2 : c = '.'
    · right; left
      refine ⟨h2, ?_⟩
      subst h2
      simp only [simpleItem, ends] at h
      obtain ⟨d, -, hd⟩ := mem_stepChar _ p q (by simpa using h)
      exact ⟨d, hd⟩
    · right; right
      refine ⟨h1, h2, ?_⟩
      simp only [simpleItem, h1, h2, if_false, ends] at h
      obtain ⟨d, hd1, hd⟩ := mem_stepChar _ p q h
      have : d = c := by simpa using hd1
      rw [hd, this]

theorem mem_ends_catList_cons (r : Regex) (rs : List Regex) (p q : Pos) :
    q ∈ ends (catList (r :: rs)) p ↔ ∃ m, m ∈ ends r p ∧ q ∈ ends (catList rs) m := by
  simp [catList, ends, List.mem_flatMap]

/-- A match of a pattern of `*` and characters without a special meaning consumes a text
that the pattern covers in the sense of `globMatch`. -/
theorem ends_simple_glob (p : List Char) (h : ∀ c ∈ p, c = '*' ∨ plainChar c = true)
    (a q : Pos) (hq : q ∈ ends (catList (p.map simpleItem)) a) :
    ∃ w, a.rest = w ++ q.rest ∧ globMatch p w = true := by
  induction p generalizing a with
  | nil =>
    simp only [List.map_nil, catList, ends, List.mem_singleton] at hq
    subst hq
    exact ⟨[], rfl, rfl⟩
  | cons c p ih =>
    rw [List.map_cons, mem_ends_catList_cons] at hq
    obtain ⟨m, hm, hq⟩ := hq
    obtain ⟨w, hw, hg⟩ := ih (fun d hd => h d (by simp [hd])) m hq
    rcases mem_ends_simpleItem c a m hm with ⟨hc, run, hrun⟩ | ⟨hc, -⟩ | ⟨hc1, -, hrest⟩
    · refine ⟨run ++ w, by rw [hrun, hw, List.append_assoc], ?_⟩
      simp only [globMatch, hc, if_true, List.any_eq_true, List.mem_tails]
      exact ⟨w, List.suffix_append run w, hg⟩
    · exfalso
      rcases h c (by simp) with e | e
      · rw [hc] at e
        exact absurd e (by decide)
      · rw [hc] at e
        exact absurd e (by decide)
    · refine ⟨c :: w, by rw [hrest, hw, List.cons_append], ?_⟩
      simp [globMatch, hc1, hg]

/-- A match of a pattern of `*`, `.` and characters without a special meaning consumes a
text that contains every character of the pattern other than `*` and `.`. -/
theorem ends_simple_mem (p : List Char) (a q : Pos)
    (hq : q ∈ ends (catList (p.map simpleItem)) a) :
    ∃ w, a.rest = w ++ q.rest ∧ ∀ c ∈ p, c ≠ '*' → c ≠ '.' → c ∈ w := by
  induction p generalizing a with
  | nil =>
    simp only [List.map_nil, catList, ends, List.mem_singleton] at hq
    subst hq
    exact ⟨[], rfl, by simp⟩
  | cons c p ih =>
    rw [List.map_cons, mem_ends_catList_cons] at hq
    obtain ⟨m, hm, hq⟩ := hq
    obtain ⟨w, hw, hg⟩ := ih m hq
    rcases mem_ends_simpleItem c a m hm with ⟨hc, run, hrun⟩ | ⟨hc, d, hd⟩ | ⟨-, -, hrest⟩
    · refine ⟨run ++ w, by rw [hrun, hw, List.append_assoc], ?_⟩
      intro x hx h1 h2
      rcases List.mem_cons.1 hx with e | e
      · exact absurd (e.trans hc) h1
      · exact List.mem_append_right _ (hg x e h1 h2)
    · refine ⟨d :: w, by rw [hd, hw, List.cons_append], ?_⟩
      intro x hx h1 h2
      rcases List.mem_cons.1 hx with e | e
      · exact absurd (e.trans hc) h2
      · exact List.mem_cons_of_mem _ (hg x e h1 h2)
    · refine ⟨c :: w, by rw [hrest, hw, List.cons_append], ?_⟩
      intro x hx h1 h2
      rcases List.mem_cons.1 hx with e | e
      · rw [e]
        exact List.mem_cons_self _ _
      · exact List.mem_cons_of_mem _ (hg x e h1 h2)

theorem mem_positions (b : Bool) (s : List Char) (a : Pos) (h : a ∈ positions b s) :
    ∃ pre, s = pre ++ a.rest := by
  induction s generalizing b with
  | nil =>
    simp only [positions, List.mem_singleton] at h
    subst h
    exact ⟨[], rfl⟩
  | cons c s ih =>
    simp only [positions, List.mem_cons] at h
    rcases h with rfl | h
    · exact ⟨[], rfl⟩
    · obtain ⟨pre, hpre⟩ := ih false h
      exact ⟨c :: pre, by rw [hpre, List.cons_append]⟩

theorem matchString_true (re : Regex) (s : List Char) (h : matchString re s = true) :
    ∃ a q, q ∈ ends re a ∧ ∃ pre, s = pre ++ a.rest := by
  unfold matchString at h
  rw [List.any_eq_true] at h
  obtain ⟨a, ha, hne⟩ := h
  cases he : ends re a with
  | nil => simp [he] at hne
  | cons q qs => exact ⟨a, q, by rw [he]; exact List.mem_cons_self _ _, mem_positions _ _ _ ha⟩

theorem self_mem_starLoop (step : Pos → List Pos) (n : Nat) (p : Pos) :
    p ∈ starLoop step n p := by
  cases n <;> simp [starLoop]

/-- The fuel of `starLoop` is enough: beyond the length of the remaining text, more fuel
reaches no further place. -/
theorem starLoop_fuel (step : Pos → List Pos) (n : Nat) (p q : Pos)
    (hn : p.rest.length ≤ n) :
    q ∈ starLoop step (n + 1) p ↔ q ∈ starLoop step n p := by
  induction n generalizing p with
  | zero =>
    have h0 : p.rest.length = 0 := Nat.le_zero.1 hn
    simp [starLoop, h0]
  | succ n ih =>
    rw [starLoop, starLoop]
    simp only [List.mem_cons, List.mem_flatMap, List.mem_filter, decide_eq_true_eq]
    constructor
    · rintro (h | ⟨m, ⟨hm, hlt⟩, hq⟩)
      · exact Or.inl h
      · exact Or.inr ⟨m, ⟨hm, hlt⟩, (ih m (by omega)).1 hq⟩
    · rintro (h | ⟨m, ⟨hm, hlt⟩, hq⟩)
      · exact Or.inl h
      · exact Or.inr ⟨m, ⟨hm, hlt⟩, (ih m (by omega)).2 hq⟩

theorem starLoop_anyChar_run (run t : List Char) (hrun : '\n' ∉ run) (n : Nat)
    (hn : run.length ≤ n) (a : Pos) (ha : a.rest = run ++ t) :
    ∃ m, m ∈ starLoop (ends Regex.anyCharNotNL) n a ∧ m.rest = t := by
  induction run generalizing n a with
  | nil => exact ⟨a, self_mem_starLoop _ n a, by simpa using ha⟩
  | cons d run ih =>
    obtain ⟨k, rfl⟩ : ∃ k, n = k + 1 := ⟨n - 1, by simp at hn; omega⟩
    have hd : d ≠ '\n' := fun e => hrun (by simp [e])
    obtain ⟨m, hm, hmt⟩ := ih (fun e => hrun (by simp [e])) k (by simp at hn; omega)
      ⟨false, run ++ t⟩ rfl
    refine ⟨m, ?_, hmt⟩
    simp only [starLoop, List.mem_cons, List.mem_flatMap, List.mem_filter, decide_eq_true_eq]
    refine Or.inr ⟨⟨false, run ++ t⟩, ⟨?_, ?_⟩, hm⟩
    · simp [ends, stepChar, ha, hd]
    · simp [ha]

/-- Every text without a newline that a pattern of `*` and characters without a special
meaning covers in the sense of `globMatch` is consumed by a match of the pattern. -/
theorem ends_simple_complete (p : List Char) (h : ∀ c ∈ p, c = '*' ∨ plainChar c = true)
    (w r : List Char) (hw : '\n' ∉ w) (hg : globMatch p w = true) (a : Pos)
    (ha : a.rest = w ++ r) :
    ∃ q, q ∈ ends (catList (p.map simpleItem)) a ∧ q.rest = r := by
  induction p generalizing w a with
  | nil =>
    have hwe : w = [] := by simpa [globMatch] using hg
    subst hwe
    exact ⟨a, by simp [catList, ends], by simpa using ha⟩
  | cons c p ih =>
    have hp : ∀ d ∈ p, d = '*' ∨ plainChar d = true := fun d hd => h d (by simp [hd])
    by_cases hc : c = '*'
    · simp only [globMatch, hc, if_true, List.any_eq_true, List.mem_tails] at hg
      obtain ⟨w1, ⟨run, hrun⟩, hg1⟩ := hg
      subst hrun
      have hnl1 : '\n' ∉ run := fun e => hw (by simp [e])
      have hnl2 : '\n' ∉ w1 := fun e => hw (by simp [e])
      obtain ⟨m, hm, hmt⟩ := starLoop_anyChar_run run (w1 ++ r) hnl1 a.rest.length
        (by simp [ha]) a (by rw [ha, List.append_assoc])
      obtain ⟨q, hq, hqr⟩ := ih hp w1 hnl2 hg1 m hmt
      refine ⟨q, ?_, hqr⟩
      rw [List.map_cons, mem_ends_catList_cons]
      exact ⟨m, by simpa [simpleItem, hc, ends] using hm, hq⟩
    · have hplain : plainChar c = true := (h c (by simp)).resolve_left hc
      have hdot : c ≠ '.' := (plainChar_ne c hplain).2.1
      cases w with
      | nil => simp [globMatch, hc] at hg
      | cons d w1 =>
        simp only [globMatch, hc, if_false, Bool.and_eq_true, decide_eq_true_eq] at hg
        obtain ⟨hdc, hg1⟩ := hg
        subst hdc
        obtain ⟨q, hq, hqr⟩ := ih hp w1 (fun e => hw (by simp [e])) hg1 ⟨false, w1 ++ r⟩ rfl
        refine ⟨q, ?_, hqr⟩
        rw [List.map_cons, mem_ends_catList_cons]
        exact ⟨⟨false, w1 ++ r⟩, by simp [simpleItem, hc, hdot, ends, stepChar, ha], hq⟩

theorem positions_mem_of_split (b : Bool) (pre t : List Char) :
    ∃ a, a ∈ positions b (pre ++ t) ∧ a.rest = t := by
  induction pre generalizing b with
  | nil => cases t <;> simp [positions]
  | cons c pre ih =>
    obtain ⟨a, ha, hat⟩ := ih false
    exact ⟨a, by simp [positions, ha], hat⟩

theorem matchString_of_mem (re : Regex) (pre t : List Char) (a q : Pos)
    (ha : a ∈ positions true (pre ++ t)) (hq : q ∈ ends re a) :
    matchString re (pre ++ t) = true := by
  unfold matchString
  rw [List.any_eq_true]
  refine ⟨a, ha, ?_⟩
  cases he : ends re a with
  | nil => rw [he] at hq; simp at hq
  | cons x xs => rfl

/-! ## `isInBlacklist` -/

theorem isInBlacklist_cons_ok (pattern : List Char) (rest : List (List Char))
    (email : List Char) (re : Regex)
    (h : compile (replaceAll pattern '*' ['.', '*']) = .ok re) :
    isInBlacklist (pattern :: rest) email =
      if matchString re email then .returns true else isInBlacklist rest email := by
  simp only [isInBlacklist, h]

theorem isInBlacklist_cons_returns (pattern : List Char) (rest : List (List Char))
    (email : List Char) (b : Bool)
    (h : isInBlacklist (pattern :: rest) email = .returns b) :
    ∃ re, compile (replaceAll pattern '*' ['.', '*']) = .ok re ∧
      (if matchString re email then Verdict.returns true else isInBlacklist rest email) =
        .returns b := by
  cases hc : compile (replaceAll pattern '*' ['.', '*']) with
  | ok re =>
    rw [isInBlacklist_cons_ok pattern rest email re hc] at h
    exact ⟨re, rfl, h⟩
  | badPattern =>
    simp only [isInBlacklist, hc] at h
    cases h
  | outsideFragment =>
    simp only [isInBlacklist, hc] at h
    cases h

theorem isInBlacklist_cons_bad (pattern : List Char) (rest : List (List Char))
    (email : List Char) (h : compile (replaceAll pattern '*' ['.', '*']) = .badPattern) :
    isInBlacklist (pattern :: rest) email = .panics := by
  simp only [isInBlacklist, h]

theorem plainChar_of_alnum (c : Char)
    (h : c.isAlpha = true ∨ c.isDigit = true ∨ c = '@') : plainChar c = true := by
  by_contra hc
  have hm : c ∈ metaChars := by
    have hcon : metaChars.contains c = true := by simpa [plainChar] using hc
    exact List.elem_iff.1 hcon
  simp only [metaChars, List.mem_cons, List.mem_singleton, List.not_mem_nil, or_false] at hm
  obtain rfl | rfl | rfl | rfl | rfl | rfl | rfl | rfl | rfl | rfl | rfl | rfl | rfl | rfl := hm
  all_goals (revert h; decide)

/-- On a list of patterns that all compile, `isInBlacklist` returns whether any of them
matches; the order of the list plays no part. -/
theorem isInBlacklist_perm_of_compiles (l1 l2 : List (List Char)) (hperm : l1.Perm l2)
    (hok : ∀ p ∈ l1, ∃ re, compile (replaceAll p '*' ['.', '*']) = .ok re)
    (email : List Char) : isInBlacklist l1 email = isInBlacklist l2 email := by
  have key : ∀ l : List (List Char),
      (∀ p ∈ l, ∃ re, compile (replaceAll p '*' ['.', '*']) = .ok re) →
      isInBlacklist l email = .returns (l.any (fun p =>
        match compile (replaceAll p '*' ['.', '*']) with
        | .ok re => matchString re email
        | _ => false)) := by
    intro l
    induction l with
    | nil => intro _; rfl
    | cons p l ih =>
      intro h
      obtain ⟨re, hre⟩ := h p (by simp)
      rw [isInBlacklist_cons_ok p l email re hre, ih (fun q hq => h q (by simp [hq]))]
      by_cases hm : matchString re email = true
      · simp [hre, hm]
      · simp [hre, hm]
  rw [key l1 hok, key l2 (fun p hp => hok p (hperm.mem_iff.2 hp))]
  congr 1
  rw [Bool.eq_iff_iff]
  simp only [List.any_eq_true]
  constructor
  · rintro ⟨p, hp, h⟩
    exact ⟨p, hperm.mem_iff.1 hp, h⟩
  · rintro ⟨p, hp, h⟩
    exact ⟨p, hperm.mem_iff.2 hp, h⟩

/-- C1, as the specification states it, fails: the pattern `*@spam.example` denylists
`x@spam.example.com`, which it does not cover as a whole. -/
theorem C1_anchored_counterexample :
    isInBlacklist ["*@spam.example".toList] "x@spam.example.com".toList = .returns true ∧
      ¬ ∃ p ∈ ["*@spam.example".toList], globMatch p "x@spam.example.com".toList = true := by
  decide

/-- C1, amended: matching is a search, not anchored.  For every list of patterns made of
`*` and characters without a special meaning in a regular expression, and every
candidate, if `isInBlacklist` returns true then some pattern of the list covers a
contiguous part of the candidate, where `*` stands for any run of zero or more characters
and every other character for itself.  With the single pattern `*@spam.example` the
candidates `x@spam.example`, `anything@spam.example` and `x@spam.example.com` are all
denylisted. -/
theorem C1_search_match :
    (∀ (patterns : List (List Char)) (candidate : List Char),
      (∀ p ∈ patterns, ∀ c ∈ p, c = '*' ∨ plainChar c = true) →
      isInBlacklist patterns candidate = .returns true →
      ∃ p ∈ patterns, ∃ pre w post, candidate = pre ++ w ++ post ∧ globMatch p w = true) ∧
    isInBlacklist ["*@spam.example".toList] "x@spam.example".toList = .returns true ∧
    isInBlacklist ["*@spam.example".toList] "anything@spam.example".toList = .returns true ∧
    isInBlacklist ["*@spam.example".toList] "x@spam.example.com".toList = .returns true := by
  refine ⟨?_, by decide, by decide, by decide⟩
  intro patterns candidate hs
  induction patterns with
  | nil => intro h; simp [isInBlacklist] at h
  | cons p ps ih =>
    intro h
    have hp : ∀ c ∈ p, c = '*' ∨ plainChar c = true := hs p (by simp)
    have hsimple : ∀ c ∈ p, simpleChar c = true := by
      intro c hc
      rcases hp c hc with e | e
      · simp [simpleChar, e]
      · simp [simpleChar, e]
    obtain ⟨re, hre, h⟩ := isInBlacklist_cons_returns p ps candidate true h
    have hcat := compile_simple_ok p hsimple re hre
    subst hcat
    by_cases hm : matchString (catList (p.map simpleItem)) candidate = true
    · obtain ⟨a, q, hq, pre, hpre⟩ := matchString_true _ _ hm
      obtain ⟨w, hw, hg⟩ := ends_simple_glob p hp a q hq
      exact ⟨p, by simp, pre, w, q.rest, by rw [hpre, hw, List.append_assoc], hg⟩
    · rw [if_neg hm] at h
      obtain ⟨p1, hp1, hrest⟩ := ih (fun r hr => hs r (by simp [hr])) h
      exact ⟨p1, by simp [hp1], hrest⟩

/-- C1 amended, at the pattern `bad*` and the candidate `x@bad.com`. -/
theorem C1_search_match_witness :
    (∀ p ∈ ["bad*".toList], ∀ c ∈ p, c = '*' ∨ plainChar c = true) ∧
      isInBlacklist ["bad*".toList] "x@bad.com".toList = .returns true ∧
      ∃ p ∈ ["bad*".toList], ∃ pre w post,
        "x@bad.com".toList = pre ++ w ++ post ∧ globMatch p w = true :=
  ⟨by decide, by decide,
    C1_search_match.1 ["bad*".toList] "x@bad.com".toList (by decide) (by decide)⟩

/-- C2 fails on the code: only `*` is rewritten, every other character with a special
meaning in a regular expression keeps it.  The patterns `a+b@x.com`, `ab?c`, `a^b` and
`a$b` cover the addresses equal to them character by character and do not denylist them
(`a+b@x.com` denylists `aab@x.com` instead); the patterns `(`, `[` and `a\` panic on the
addresses equal to them; and the `.` of `evil.com` stands for any character. -/
theorem C2_literal_failing_input :
    (globMatch "a+b@x.com".toList "a+b@x.com".toList = true ∧
      isInBlacklist ["a+b@x.com".toList] "a+b@x.com".toList = .returns false ∧
      isInBlacklist ["a+b@x.com".toList] "aab@x.com".toList = .returns true) ∧
    (globMatch "ab?c".toList "ab?c".toList = true ∧
      isInBlacklist ["ab?c".toList] "ab?c".toList = .returns false) ∧
    (globMatch "a^b".toList "a^b".toList = true ∧
      isInBlacklist ["a^b".toList] "a^b".toList = .returns false) ∧
    (globMatch "a$b".toList "a$b".toList = true ∧
      isInBlacklist ["a$b".toList] "a$b".toList = .returns false) ∧
    (globMatch "(".toList "(".toList = true ∧
      isInBlacklist ["(".toList] "(".toList = .panics) ∧
    (globMatch "[".toList "[".toList = true ∧
      isInBlacklist ["[".toList] "[".toList = .panics) ∧
    (globMatch "a\\".toList "a\\".toList = true ∧
      isInBlacklist ["a\\".toList] "a\\".toList = .panics) ∧
    isInBlacklist ["evil.com".toList] "user@evilXcom".toList = .returns true := by
  decide

/-- C8 fails on the code: the lists `evil.com`, `(` and `(`, `evil.com` are permutations
of each other; on the address `user@evil.com` the first returns true and the second
panics. -/
theorem C8_order_failing_input :
    List.Perm ["evil.com".toList, "(".toList] ["(".toList, "evil.com".toList] ∧
      isInBlacklist ["evil.com".toList, "(".toList] "user@evil.com".toList = .returns true ∧
      isInBlacklist ["(".toList, "evil.com".toList] "user@evil.com".toList = .panics :=
  ⟨List.Perm.swap _ _ _, by decide, by decide⟩

/-- Within the size limit matching is case-sensitive, with no folding of the pattern or
of the candidate: a pattern of at most 1,000,000 characters among ASCII letters, digits,
`@`, `.` and `*` does not denylist a candidate in which one of its characters other than
`.` and `*` does not occur as it is written. -/
theorem case_sensitive_bounded (pattern candidate : List Char)
    (hlen : pattern.length ≤ 1000000)
    (hchars : ∀ c ∈ pattern,
      c.isAlpha = true ∨ c.isDigit = true ∨ c = '@' ∨ c = '.' ∨ c = '*')
    (u : Char) (hu : u ∈ pattern) (h1 : u ≠ '*') (h2 : u ≠ '.') (hnot : u ∉ candidate) :
    isInBlacklist [pattern] candidate = .returns false := by
  have hsimple : ∀ c ∈ pattern, simpleChar c = true := by
    intro c hc
    rcases hchars c hc with e | e | e | e | e
    · simp [simpleChar, plainChar_of_alnum c (Or.inl e)]
    · simp [simpleChar, plainChar_of_alnum c (Or.inr (Or.inl e))]
    · simp [simpleChar, plainChar_of_alnum c (Or.inr (Or.inr e))]
    · simp [simpleChar, e]
    · simp [simpleChar, e]
  rw [isInBlacklist_cons_ok pattern [] candidate _ (compile_simple pattern hsimple hlen)]
  by_cases hm : matchString (catList (pattern.map simpleItem)) candidate = true
  · exfalso
    obtain ⟨a, q, hq, pre, hpre⟩ := matchString_true _ _ hm
    obtain ⟨w, hw, hmem⟩ := ends_simple_mem pattern a q hq
    apply hnot
    rw [hpre, hw]
    simp [hmem u hu h1 h2]
  · rw [if_neg hm]
    rfl

/-- Within the size limit an uppercase letter of the pattern is not matched by a
candidate without uppercase letters, and a lowercase letter of the pattern is not matched
by a candidate without lowercase letters. -/
theorem case_sensitive_both_ways (pattern candidate : List Char)
    (hlen : pattern.length ≤ 1000000)
    (hchars : ∀ c ∈ pattern,
      c.isAlpha = true ∨ c.isDigit = true ∨ c = '@' ∨ c = '.' ∨ c = '*') :
    ((∃ c ∈ pattern, c.isUpper = true) → (∀ c ∈ candidate, c.isUpper = false) →
      isInBlacklist [pattern] candidate = .returns false) ∧
    ((∃ c ∈ pattern, c.isLower = true) → (∀ c ∈ candidate, c.isLower = false) →
      isInBlacklist [pattern] candidate = .returns false) := by
  constructor
  · rintro ⟨u, hu, hup⟩ hcand
    refine case_sensitive_bounded pattern candidate hlen hchars u hu ?_ ?_ ?_
    · rintro rfl
      exact absurd hup (by decide)
    · rintro rfl
      exact absurd hup (by decide)
    · intro hmem
      rw [hcand u hmem] at hup
      exact absurd hup (by decide)
  · rintro ⟨u, hu, hlow⟩ hcand
    refine case_sensitive_bounded pattern candidate hlen hchars u hu ?_ ?_ ?_
    · rintro rfl
      exact absurd hlow (by decide)
    · rintro rfl
      exact absurd hlow (by decide)
    · intro hmem
      rw [hcand u hmem] at hlow
      exact absurd hlow (by decide)

theorem flatSize_star_run (n : Nat) :
    flatSize ((List.replicate n '*').flatMap simpleToks) = 3 * n := by
  induction n with
  | zero => rfl
  | succ n ih =>
    rw [List.replicate_succ, List.flatMap_cons, flatSize_append, ih]
    have h : flatSize (simpleToks '*') = 3 := by decide
    omega

theorem nodeFloor_star_run (n : Nat) :
    nodeFloor ((List.replicate n '*').flatMap simpleToks) = 2 * n := by
  induction n with
  | zero => rfl
  | succ n ih =>
    rw [List.replicate_succ, List.flatMap_cons, nodeFloor_append, ih]
    have h : nodeFloor (simpleToks '*') = 2 := by decide
    omega

/-- The letter `A` followed by so many `*` that at least `maxSize` nodes are allocated
and the expression is larger than `maxSize` is rejected by `compile`. -/
theorem compile_star_run (n : Nat) (h1 : maxSize < 1 + 3 * n) (h2 : maxSize ≤ 2 * n) :
    compile (replaceAll ('A' :: List.replicate n '*') '*' ['.', '*']) = .badPattern := by
  have hs : ∀ c ∈ 'A' :: List.replicate n '*', simpleChar c = true := by
    intro c hc
    rcases List.mem_cons.1 hc with e | e
    · rw [e]
      decide
    · rw [List.eq_of_mem_replicate e]
      decide
  have hA : simpleToks 'A' = [Token.atom (Regex.lit 'A')] := by simp [simpleToks]
  have hf : flatSize [Token.atom (Regex.lit 'A')] = 1 := by decide
  have hn : nodeFloor [Token.atom (Regex.lit 'A')] = 0 := by decide
  rw [compile_simple_eq _ hs, List.flatMap_cons, flatSize_append, nodeFloor_append,
    flatSize_star_run, nodeFloor_star_run, hA, hf, hn, if_neg (by omega), if_pos (by omega)]

theorem star_run_loads (n : Nat) :
    loadBlacklist (.content ('A' :: List.replicate n '*')) =
      .ok ['A' :: List.replicate n '*'] := by
  apply loadBlacklist_single_line
  · exact List.cons_ne_nil _ _
  · intro c hc
    rcases List.mem_cons.1 hc with e | e
    · rw [e]
      decide
    · rw [List.eq_of_mem_replicate e]
      decide
  · rw [List.head?_cons]
    decide

theorem star_run_alphabet (n : Nat) :
    ∀ c ∈ 'A' :: List.replicate n '*',
      c.isAlpha = true ∨ c.isDigit = true ∨ c = '@' ∨ c = '.' ∨ c = '*' := by
  intro c hc
  rcases List.mem_cons.1 hc with e | e
  · rw [e]
    decide
  · exact Or.inr (Or.inr (Or.inr (Or.inr (List.eq_of_mem_replicate e))))

/-- C9 fails on the code: the pattern `A` followed by 1,700,000 times `*` is loaded from
a file of that one line, is made of ASCII letters and `*` and has an uppercase letter,
the candidate `x@spam.example` has no uppercase letter, and `isInBlacklist` does not
return false: the expression is too large
for the library and `MustCompile` panics.  On the patterns `*@SPAM.example` and
`*@spam.example` matching is case-sensitive in both directions. -/
theorem C9_oversize_failing_input :
    (loadBlacklist (.content oversizePattern) = .ok [oversizePattern] ∧
      (∀ c ∈ oversizePattern,
        c.isAlpha = true ∨ c.isDigit = true ∨ c = '@' ∨ c = '.' ∨ c = '*') ∧
      (∃ c ∈ oversizePattern, c.isUpper = true) ∧
      (∀ c ∈ "x@spam.example".toList, c.isUpper = false) ∧
      isInBlacklist [oversizePattern] "x@spam.example".toList = .panics) ∧
    isInBlacklist ["*@SPAM.example".toList] "x@spam.example".toList = .returns false ∧
    isInBlacklist ["*@spam.example".toList] "x@SPAM.example".toList = .returns false ∧
    isInBlacklist ["*@SPAM.example".toList] "x@SPAM.example".toList = .returns true :=
  ⟨⟨star_run_loads 1700000, star_run_alphabet 1700000,
      ⟨'A', List.mem_cons_self _ _, by decide⟩, by decide,
      isInBlacklist_cons_bad _ [] _
        (compile_star_run 1700000 (by unfold maxSize; omega) (by unfold maxSize; omega))⟩,
    by decide, by decide, by decide⟩

/-- C10 fails on the code: the lines `(`, `[` and `a\` are loaded as patterns, and on
each of them `isInBlacklist` panics for every candidate address. -/
theorem C10_panic_failing_input :
    loadBlacklist (.content "(\n[\na\\".toList) =
        .ok ["(".toList, "[".toList, "a\\".toList] ∧
      (∀ candidate, isInBlacklist ["(".toList] candidate = .panics) ∧
      (∀ candidate, isInBlacklist ["[".toList] candidate = .panics) ∧
      (∀ candidate, isInBlacklist ["a\\".toList] candidate = .panics) :=
  ⟨congrArg Except.ok (by decide), fun _ => rfl, fun _ => rfl, fun _ => rfl⟩

/-! ## Where the code and the glob reading agree -/

/-- On patterns of at most 1,000,000 characters among `*`, `.` and those without a
special meaning, `isInBlacklist` neither panics nor leaves the modelled fragment: it
returns true or false. -/
theorem isInBlacklist_simple_returns (patterns : List (List Char))
    (hs : ∀ p ∈ patterns, ∀ c ∈ p, simpleChar c = true)
    (hlen : ∀ p ∈ patterns, p.length ≤ 1000000) (candidate : List Char) :
    ∃ b, isInBlacklist patterns candidate = .returns b := by
  induction patterns with
  | nil => exact ⟨false, rfl⟩
  | cons p ps ih =>
    rw [isInBlacklist_cons_ok p ps candidate _
      (compile_simple p (hs p (by simp)) (hlen p (by simp)))]
    by_cases hm : matchString (catList (p.map simpleItem)) candidate = true
    · exact ⟨true, by rw [if_pos hm]⟩
    · rw [if_neg hm]
      exact ih (fun r hr => hs r (by simp [hr])) (fun r hr => hlen r (by simp [hr]))

/-- On patterns of at most 1,000,000 characters among `*` and those without a special
meaning, and candidates without a newline, `isInBlacklist` returns true as soon as some pattern covers a contiguous part
of the candidate in the sense of `globMatch`. -/
theorem isInBlacklist_plain_complete (patterns : List (List Char))
    (hs : ∀ p ∈ patterns, ∀ c ∈ p, c = '*' ∨ plainChar c = true)
    (hlen : ∀ p ∈ patterns, p.length ≤ 1000000)
    (candidate : List Char) (hnl : '\n' ∉ candidate)
    (h : ∃ p ∈ patterns, ∃ pre w post,
      candidate = pre ++ w ++ post ∧ globMatch p w = true) :
    isInBlacklist patterns candidate = .returns true := by
  induction patterns with
  | nil =>
    obtain ⟨p, hp, -⟩ := h
    simp at hp
  | cons p0 ps ih =>
    have hp0 : ∀ c ∈ p0, c = '*' ∨ plainChar c = true := hs p0 (by simp)
    have hsimple : ∀ c ∈ p0, simpleChar c = true := by
      intro c hc
      rcases hp0 c hc with e | e
      · simp [simpleChar, e]
      · simp [simpleChar, e]
    rw [isInBlacklist_cons_ok p0 ps candidate _
      (compile_simple p0 hsimple (hlen p0 (by simp)))]
    by_cases hm : matchString (catList (p0.map simpleItem)) candidate = true
    · rw [if_pos hm]
    · rw [if_neg hm]
      apply ih (fun r hr => hs r (by simp [hr])) (fun r hr => hlen r (by simp [hr]))
      obtain ⟨p, hp, pre, w, post, hcand, hg⟩ := h
      rcases List.mem_cons.1 hp with e | e
      · exfalso
        subst e
        apply hm
        have hw : '\n' ∉ w := fun e => hnl (by rw [hcand]; simp [e])
        obtain ⟨a, ha, hat⟩ := positions_mem_of_split true pre (w ++ post)
        obtain ⟨q, hq, -⟩ := ends_simple_complete p hp0 w post hw hg a hat
        rw [hcand, List.append_assoc]
        exact matchString_of_mem _ pre (w ++ post) a q ha hq
      · exact ⟨p, e, pre, w, post, hcand, hg⟩

/-! ## The matcher computes the textbook meaning -/

theorem stepChar_rest (ok : Char → Bool) (p q : Pos) (h : q ∈ stepChar ok p) :
    ∃ d, ok d = true ∧ p.rest = d :: q.rest ∧ q.atStart = false := by
  unfold stepChar at h
  split at h
  · simp at h
  · rename_i d t ht
    by_cases hd : ok d = true
    · simp only [hd, if_true, List.mem_singleton] at h
      subst h
      exact ⟨d, hd, ht, rfl⟩
    · simp [hd] at h

theorem mem_stepChar_of (ok : Char → Bool) (d : Char) (p q : Pos)
    (hr : p.rest = d :: q.rest) (hs : q.atStart = false) (hd : ok d = true) :
    q ∈ stepChar ok p := by
  cases q with
  | mk b t =>
    simp only at hr hs
    subst hs
    simp [stepChar, hr, hd]

theorem starLoop_consumed (step : Pos → List Pos)
    (hstep : ∀ a b, b ∈ step a → ∃ w, a.rest = w ++ b.rest ∧ (w = [] → b = a))
    (n : Nat) (p q : Pos) (h : q ∈ starLoop step n p) :
    ∃ w, p.rest = w ++ q.rest ∧ (w = [] → q = p) := by
  induction n generalizing p with
  | zero =>
    simp only [starLoop, List.mem_singleton] at h
    subst h
    exact ⟨[], rfl, fun _ => rfl⟩
  | succ n ih =>
    simp only [starLoop, List.mem_cons, List.mem_flatMap, List.mem_filter,
      decide_eq_true_eq] at h
    rcases h with rfl | ⟨m, ⟨hm, hlt⟩, hq⟩
    · exact ⟨[], rfl, fun _ => rfl⟩
    · obtain ⟨w1, h1, -⟩ := hstep p m hm
      obtain ⟨w2, h2, -⟩ := ih m hq
      refine ⟨w1 ++ w2, by rw [h1, h2, List.append_assoc], ?_⟩
      intro hw
      exfalso
      have hw1 : w1 = [] := (List.append_eq_nil.1 hw).1
      rw [h1, hw1] at hlt
      simp at hlt

/-- A match never moves backwards, and a match that consumes nothing ends where it
started. -/
theorem ends_consumed (r : Regex) (p q : Pos) (h : q ∈ ends r p) :
    ∃ w, p.rest = w ++ q.rest ∧ (w = [] → q = p) := by
  induction r generalizing p q with
  | emptyMatch =>
    simp only [ends, List.mem_singleton] at h
    subst h
    exact ⟨[], rfl, fun _ => rfl⟩
  | lit c =>
    obtain ⟨d, -, hd, -⟩ := stepChar_rest _ p q h
    exact ⟨[d], by simp [hd], by simp⟩
  | anyCharNotNL =>
    obtain ⟨d, -, hd, -⟩ := stepChar_rest _ p q h
    exact ⟨[d], by simp [hd], by simp⟩
  | charClass neg ranges =>
    obtain ⟨d, -, hd, -⟩ := stepChar_rest _ p q h
    exact ⟨[d], by simp [hd], by simp⟩
  | beginText =>
    simp only [ends] at h
    split at h
    · simp only [List.mem_singleton] at h
      subst h
      exact ⟨[], rfl, fun _ => rfl⟩
    · simp at h
  | endText =>
    simp only [ends] at h
    split at h
    · simp only [List.mem_singleton] at h
      subst h
      exact ⟨[], rfl, fun _ => rfl⟩
    · simp at h
  | cat a b iha ihb =>
    simp only [ends, List.mem_flatMap] at h
    obtain ⟨m, hm, hq⟩ := h
    obtain ⟨w1, h1, e1⟩ := iha p m hm
    obtain ⟨w2, h2, e2⟩ := ihb m q hq
    refine ⟨w1 ++ w2, by rw [h1, h2, List.append_assoc], ?_⟩
    intro hw
    obtain ⟨hw1, hw2⟩ := List.append_eq_nil.1 hw
    rw [e2 hw2, e1 hw1]
  | alt a b iha ihb =>
    simp only [ends, List.mem_append] at h
    rcases h with h | h
    · exact iha p q h
    · exact ihb p q h
  | star a iha =>
    simp only [ends] at h
    exact starLoop_consumed _ iha _ p q h
  | plus a iha =>
    simp only [ends, List.mem_flatMap] at h
    obtain ⟨m, hm, hq⟩ := h
    obtain ⟨w1, h1, e1⟩ := iha p m hm
    obtain ⟨w2, h2, e2⟩ := starLoop_consumed _ iha _ m q hq
    refine ⟨w1 ++ w2, by rw [h1, h2, List.append_assoc], ?_⟩
    intro hw
    obtain ⟨hw1, hw2⟩ := List.append_eq_nil.1 hw
    rw [e2 hw2, e1 hw1]
  | quest a iha =>
    simp only [ends, List.mem_cons] at h
    rcases h with rfl | h
    · exact ⟨[], rfl, fun _ => rfl⟩
    · exact iha p q h

theorem starLoop_sound (a : Regex) (step : Pos → List Pos)
    (hstep : ∀ p q, q ∈ step p → Matches a p q) (n : Nat) (p q : Pos)
    (h : q ∈ starLoop step n p) : Matches (.star a) p q := by
  induction n generalizing p with
  | zero =>
    simp only [starLoop, List.mem_singleton] at h
    subst h
    exact Matches.starNil a q
  | succ n ih =>
    simp only [starLoop, List.mem_cons, List.mem_flatMap, List.mem_filter] at h
    rcases h with rfl | ⟨m, ⟨hm, -⟩, hq⟩
    · exact Matches.starNil a q
    · exact Matches.starCons a p m q (hstep p m hm) (ih m hq)

/-- Every place that `ends` reports is the end of a match. -/
theorem ends_sound (r : Regex) (p q : Pos) (h : q ∈ ends r p) : Matches r p q := by
  induction r generalizing p q with
  | emptyMatch =>
    simp only [ends, List.mem_singleton] at h
    subst h
    exact Matches.emptyMatch q
  | lit c =>
    obtain ⟨d, hd, hr, hs⟩ := stepChar_rest _ p q h
    have hdc : d = c := by simpa using hd
    subst hdc
    exact Matches.lit d p q hr hs
  | anyCharNotNL =>
    obtain ⟨d, hd, hr, hs⟩ := stepChar_rest _ p q h
    exact Matches.anyCharNotNL d p q hr hs (by simpa using hd)
  | charClass neg ranges =>
    obtain ⟨d, hd, hr, hs⟩ := stepChar_rest _ p q h
    exact Matches.charClass neg ranges d p q hr hs hd
  | beginText =>
    simp only [ends] at h
    split at h
    · rename_i hb
      simp only [List.mem_singleton] at h
      subst h
      exact Matches.beginText q hb
    · simp at h
  | endText =>
    simp only [ends] at h
    split at h
    · rename_i hb
      simp only [List.mem_singleton] at h
      subst h
      exact Matches.endText q (by simpa using hb)
    · simp at h
  | cat a b iha ihb =>
    simp only [ends, List.mem_flatMap] at h
    obtain ⟨m, hm, hq⟩ := h
    exact Matches.cat a b p m q (iha p m hm) (ihb m q hq)
  | alt a b iha ihb =>
    simp only [ends, List.mem_append] at h
    rcases h with h | h
    · exact Matches.altLeft a b p q (iha p q h)
    · exact Matches.altRight a b p q (ihb p q h)
  | star a iha =>
    simp only [ends] at h
    exact starLoop_sound a _ iha _ p q h
  | plus a iha =>
    simp only [ends, List.mem_flatMap] at h
    obtain ⟨m, hm, hq⟩ := h
    exact Matches.plus a p m q (iha p m hm) (starLoop_sound a _ iha _ m q hq)
  | quest a iha =>
    simp only [ends, List.mem_cons] at h
    rcases h with rfl | h
    · exact Matches.questNil a q
    · exact Matches.questSome a p q (iha p q h)

theorem starLoop_more_fuel (step : Pos → List Pos) (p q : Pos) (k : Nat) :
    q ∈ starLoop step (p.rest.length + k) p ↔ q ∈ starLoop step p.rest.length p := by
  induction k with
  | zero => rfl
  | succ k ih =>
    rw [← ih, ← Nat.add_assoc]
    exact starLoop_fuel step (p.rest.length + k) p q (Nat.le_add_right _ _)

theorem starLoop_step (step : Pos → List Pos)
    (hstep : ∀ a b, b ∈ step a → ∃ w, a.rest = w ++ b.rest ∧ (w = [] → b = a))
    (p m q : Pos) (hm : m ∈ step p) (hq : q ∈ starLoop step m.rest.length m) :
    q ∈ starLoop step p.rest.length p := by
  obtain ⟨w, hw, he⟩ := hstep p m hm
  cases w with
  | nil =>
    rw [he rfl] at hq
    exact hq
  | cons d w =>
    have hlen : p.rest.length = (m.rest.length + w.length) + 1 := by
      rw [hw]
      simp
      omega
    rw [hlen]
    simp only [starLoop, List.mem_cons, List.mem_flatMap, List.mem_filter,
      decide_eq_true_eq]
    refine Or.inr ⟨m, ⟨hm, ?_⟩, (starLoop_more_fuel step m q w.length).2 hq⟩
    rw [hw]
    simp
    omega

/-- Every end of a match is reported by `ends`. -/
theorem ends_complete (r : Regex) (p q : Pos) (h : Matches r p q) : q ∈ ends r p := by
  induction h with
  | emptyMatch p => simp [ends]
  | lit c p q hr hs => exact mem_stepChar_of _ c p q hr hs (by simp)
  | anyCharNotNL d p q hr hs hd => exact mem_stepChar_of _ d p q hr hs (by simpa using hd)
  | charClass neg ranges d p q hr hs hd => exact mem_stepChar_of _ d p q hr hs hd
  | beginText p hp => simp [ends, hp]
  | endText p hp => simp [ends, hp]
  | cat a b p m q _ _ iha ihb =>
    simp only [ends, List.mem_flatMap]
    exact ⟨m, iha, ihb⟩
  | altLeft a b p q _ ih => simp [ends, ih]
  | altRight a b p q _ ih => simp [ends, ih]
  | starNil a p => exact self_mem_starLoop _ _ p
  | starCons a p m q _ _ iha ihs =>
    simp only [ends] at ihs ⊢
    exact starLoop_step _ (ends_consumed a) p m q iha ihs
  | plus a p m q _ _ iha ihs =>
    simp only [ends, List.mem_flatMap] at ihs ⊢
    exact ⟨m, iha, ihs⟩
  | questNil a p => simp [ends]
  | questSome a p q _ ih => simp [ends, ih]

/-- The matcher agrees with the textbook meaning: `MatchString` is true exactly when some
part of the text is a match. -/
theorem matchString_iff (re : Regex) (s : List Char) :
    matchString re s = true ↔ ∃ p ∈ positions true s, ∃ q, Matches re p q := by
  unfold matchString
  rw [List.any_eq_true]
  constructor
  · rintro ⟨p, hp, hne⟩
    cases he : ends re p with
    | nil => simp [he] at hne
    | cons q qs => exact ⟨p, hp, q, ends_sound re p q (by rw [he]; exact List.mem_cons_self _ _)⟩
  · rintro ⟨p, hp, q, hq⟩
    refine ⟨p, hp, ?_⟩
    have hmem := ends_complete re p q hq
    cases he : ends re p with
    | nil => rw [he] at hmem; simp at hmem
    | cons x xs => rfl

/-- The modelled fragment at a few patterns: stacked or dangling repetition operators and
unbalanced parentheses are rejected; `^` and `$` anchor; a bracket class, an escaped dot
and a group under `*` match as in the library. -/
theorem regexp_fragment_examples :
    isInBlacklist ["a++".toList] "a".toList = .panics ∧
    isInBlacklist ["+a".toList] "a".toList = .panics ∧
    isInBlacklist ["a|+".toList] "a".toList = .panics ∧
    isInBlacklist [")".toList] "a".toList = .panics ∧
    isInBlacklist ["[z-a]".toList] "a".toList = .panics ∧
    isInBlacklist ["^ab$".toList] "ab".toList = .returns true ∧
    isInBlacklist ["^ab$".toList] "xab".toList = .returns false ∧
    isInBlacklist ["[a-c]+d".toList] "xxbcdxx".toList = .returns true ∧
    isInBlacklist ["[^a-c]".toList] "abc".toList = .returns false ∧
    isInBlacklist ["a\\.b".toList] "a.b".toList = .returns true ∧
    isInBlacklist ["a\\.b".toList] "axb".toList = .returns false ∧
    isInBlacklist ["^(ab|cd)+?e$".toList] "abcdabe".toList = .returns true ∧
    isInBlacklist ["^(ab|cd)+?e$".toList] "abce".toList = .returns false := by
  decide

end ValidateMail
